import Mathlib

set_option maxHeartbeats 1000000

/-!
Verification of the karma-parsing and response-routing logic of the Clem
Discord bot.  The definitions below are a shallow embedding of the Python
source (clem.py, with main.py and src/clem as near-duplicate iterations):

* the regex `<@!?ID>\s+([+-]+)` used by `process_karma`, embedded as a
  deterministic scanner (`matchAt`, `findRuns`) with `re.findall`
  semantics (leftmost, non-overlapping, scan resumes after each match);
* `process_karma` itself (nested loops accumulating per-user deltas into
  an insertion-ordered dictionary);
* the karma ledger (`get_user_karma` / `update_user_karma`);
* the channel-settings store (`get_channel_config`,
  `update_channel_config`, `clem_disabled`, `karma_only`,
  `get_verbosity_level`, `set_verbosity`);
* the duplicate-response check and the relevant control flow of the
  `on_message` event handler, with external calls (LLM generation,
  Discord sends, persistence writes) supplied as oracles and Python
  exception propagation made explicit.

Strings are `List Char`; Python whitespace is modelled by the six ASCII
whitespace characters matched by the regex class; `str.lower` is modelled
by `Char.toLower` per character.
-/

/-- Whitespace characters, modelling the ASCII portion of the regex
class used in the karma pattern: space, tab, newline, carriage
return, vertical tab and form feed. -/
def isWs (c : Char) : Bool :=
  c == ' ' || c == '\t' || c == '\n' || c == '\r' ||
    c == Char.ofNat 11 || c == Char.ofNat 12

/-- Characters matched by the regex class of plus and minus signs. -/
def isPM (c : Char) : Bool :=
  c == '+' || c == '-'

/-- Python str.lower, per character (ASCII case folding). -/
def lowerL (s : List Char) : List Char :=
  s.map Char.toLower

/-- The literal substring looked for by the MENTIONED verbosity gate. -/
def clemChars : List Char :=
  ['c', 'l', 'e', 'm']

/-- Python substring containment (the in operator on str). -/
def containsSeq (needle : List Char) : List Char → Bool
  | [] => needle.isEmpty
  | c :: rest => needle.isPrefixOf (c :: rest) || containsSeq needle rest

/-- Decimal digit character for a value below ten. -/
def digitChar (n : Nat) : Char :=
  Char.ofNat (48 + n)

/-- Fuelled decimal rendering of a natural number, most significant
digit first. -/
def natCharsAux : Nat → Nat → List Char
  | 0, _ => []
  | fuel + 1, n =>
    if n < 10 then [digitChar n]
    else natCharsAux fuel (n / 10) ++ [digitChar (n % 10)]

/-- Decimal rendering of a natural number, as interpolated into the
karma regex by the Python f-string. -/
def natChars (n : Nat) : List Char :=
  natCharsAux (n + 1) n

/-- Strip an exact literal prefix, returning the remainder on success. -/
def stripLit : List Char → List Char → Option (List Char)
  | [], s => some s
  | _ :: _, [] => none
  | c :: cs, d :: ds => if c = d then stripLit cs ds else none

/-- Greedy one-or-more repetition of a character class, returning the
matched run and the remainder. -/
def takeWhile1 (p : Char → Bool) (s : List Char) : Option (List Char × List Char) :=
  if s.takeWhile p = [] then none else some (s.takeWhile p, s.dropWhile p)

/-- Match the regex fragment consisting of an optional exclamation mark
followed by the user id digits and a closing angle bracket.  The
optional mark is greedy with backtracking, as in the source regex. -/
def matchIdGt (id : List Char) (s : List Char) : Option (List Char) :=
  match s with
  | [] => none
  | c :: s2 =>
    if c = '!' then
      match stripLit (id ++ ['>']) s2 with
      | some r => some r
      | none => stripLit (id ++ ['>']) (c :: s2)
    else stripLit (id ++ ['>']) (c :: s2)

/-- Attempt to match the karma pattern anchored at the head of the
input: a mention token for the given id, one or more whitespace
characters, then a captured run of one or more plus or minus signs.
Returns the captured run and the remainder after the whole match. -/
def matchAt (id : List Char) (s : List Char) : Option (List Char × List Char) :=
  match stripLit ['<', '@'] s with
  | none => none
  | some s1 =>
    match matchIdGt id s1 with
    | none => none
    | some s2 =>
      match takeWhile1 isWs s2 with
      | none => none
      | some (_, s3) =>
        match takeWhile1 isPM s3 with
        | none => none
        | some (run, s4) => some (run, s4)

/-- Fuelled scanner with re.findall semantics: try the pattern at each
position from left to right, resuming after the end of each match. -/
def findRunsAux (id : List Char) : Nat → List Char → List (List Char)
  | 0, _ => []
  | _ + 1, [] => []
  | fuel + 1, c :: rest =>
    match matchAt id (c :: rest) with
    | some (run, s') => run :: findRunsAux id fuel s'
    | none => findRunsAux id fuel rest

/-- All captured sign runs for one user id in a message, in order of
occurrence, exactly as re.findall returns them. -/
def findRuns (id : List Char) (content : List Char) : List (List Char) :=
  findRunsAux id content.length content

/-- The optional exclamation mark distinguishing the two canonical
Discord mention forms. -/
def bangOpt (bang : Bool) : List Char :=
  if bang then ['!'] else []

/-- A mention token for a user id, in either canonical form. -/
def mentionTok (bang : Bool) (id : List Char) : List Char :=
  '<' :: '@' :: (bangOpt bang ++ id ++ ['>'])

/-- A Discord user as far as the karma logic observes it: the numeric id
interpolated into the regex and the display name used in
announcements. -/
structure Member where
  id : Nat
  name : List Char
deriving DecidableEq

/-- The signed delta computed from one captured run: half the run
length rounded down, negated when the run starts with a minus sign. -/
def runDelta (run : List Char) : Int :=
  let change : Int := ((run.length / 2 : Nat) : Int)
  if run.head? = some '-' then -change else change

/-- Python dict lookup on an insertion-ordered association list. -/
def dictGet (k : Member) : List (Member × Int) → Option Int
  | [] => none
  | (k', v) :: rest => if k' == k then some v else dictGet k rest

/-- Python dict assignment: overwrite in place, or append a new entry. -/
def dictSet (k : Member) (v : Int) : List (Member × Int) → List (Member × Int)
  | [] => [(k, v)]
  | (k', v') :: rest => if k' == k then (k, v) :: rest else (k', v') :: dictSet k v rest

/-- The inner loop of process_karma: fold one user's captured runs into
the accumulating dictionary. -/
def innerFold (u : Member) (runs : List (List Char)) (kc : List (Member × Int)) : List (Member × Int) :=
  runs.foldl (fun kc run => dictSet u ((dictGet u kc).getD 0 + runDelta run) kc) kc

/-- The outer loop of process_karma over the mention list. -/
def outerFoldKarma (content : List Char) : List Member → List (Member × Int) → List (Member × Int)
  | [], kc => kc
  | m :: rest, kc => outerFoldKarma content rest (innerFold m (findRuns (natChars m.id) content) kc)

/-- Embedding of process_karma: per-user signed karma deltas extracted
from the message content for each mentioned user. -/
def process_karma (content : List Char) (mentions : List Member) : List (Member × Int) :=
  outerFoldKarma content mentions []

/-- The aggregate delta of a list of captured runs, in fold order. -/
def sumDeltas (runs : List (List Char)) : Int :=
  runs.foldl (fun a r => a + runDelta r) 0

/-- The total delta the extractor derives for one user id from a
message. -/
def userDelta (id : List Char) (content : List Char) : Int :=
  sumDeltas (findRuns id content)

/-- The karma ledger: one integer total per user id. -/
abbrev KarmaStore := List (Nat × Int)

/-- Keyed lookup in the karma ledger. -/
def lookupKarma (uid : Nat) : KarmaStore → Option Int
  | [] => none
  | (k, v) :: rest => if k == uid then some v else lookupKarma uid rest

/-- Embedding of get_user_karma: current stored total, zero when no
record exists. -/
def get_user_karma (store : KarmaStore) (uid : Nat) : Int :=
  (lookupKarma uid store).getD 0

/-- Keyed upsert into the karma ledger. -/
def upsertKarma (uid : Nat) (v : Int) : KarmaStore → KarmaStore
  | [] => [(uid, v)]
  | (k, w) :: rest => if k == uid then (uid, v) :: rest else (k, w) :: upsertKarma uid v rest

/-- Embedding of update_user_karma (success path): read the current
total, add the change, persist the new total and return it. -/
def update_user_karma (store : KarmaStore) (uid : Nat) (change : Int) : KarmaStore × Int :=
  let current := get_user_karma store uid
  let new := current + change
  (upsertKarma uid new store, new)

/-- update_user_karma with its internal exception handlers made
explicit: a failed read is treated as a zero total, a failed write
leaves the store unchanged and returns the current total. -/
def update_user_karma_f (readFail writeFail : Bool) (store : KarmaStore) (uid : Nat) (change : Int) :
    KarmaStore × Int :=
  let current := if readFail then 0 else get_user_karma store uid
  let new := current + change
  if writeFail then (store, current) else (upsertKarma uid new store, new)

/-- Apply a sequence of deltas to the ledger for one user. -/
def apply_deltas (uid : Nat) (ds : List Int) (store : KarmaStore) : KarmaStore :=
  ds.foldl (fun s d => (update_user_karma s uid d).1) store

/-- VerbosityLevel.KARMA_ONLY. -/
def KARMA_ONLY : Int := 1

/-- VerbosityLevel.MENTIONED. -/
def MENTIONED : Int := 2

/-- VerbosityLevel.UNRESTRICTED. -/
def UNRESTRICTED : Int := 3

/-- A stored per-channel settings record.  Every write path of the
source persists both fields, so records are total. -/
structure ChannelConfig where
  disabled : Bool
  verbosity_level : Int
deriving DecidableEq

/-- The channel-settings store, keyed by channel id. -/
abbrev ChannelStore := List (Nat × ChannelConfig)

/-- Keyed lookup in the channel-settings store. -/
def lookupChannel (cid : Nat) : ChannelStore → Option ChannelConfig
  | [] => none
  | (k, v) :: rest => if k == cid then some v else lookupChannel cid rest

/-- Embedding of get_channel_config: the stored record, if any. -/
def get_channel_config (chs : ChannelStore) (cid : Nat) : Option ChannelConfig :=
  lookupChannel cid chs

/-- Keyed upsert into the channel-settings store. -/
def upsertChannel (cid : Nat) (cfg : ChannelConfig) : ChannelStore → ChannelStore
  | [] => [(cid, cfg)]
  | (k, w) :: rest => if k == cid then (cid, cfg) :: rest else (k, w) :: upsertChannel cid cfg rest

/-- Embedding of update_channel_config: build a full record from the
given fields, defaulting absent ones from the current record or the
global defaults, and upsert it. -/
def update_channel_config (chs : ChannelStore) (cid : Nat)
    (disabled? : Option Bool) (verbosity? : Option Int) : ChannelStore :=
  let current := get_channel_config chs cid
  let doc : ChannelConfig :=
    { disabled := disabled?.getD ((current.map (fun c => c.disabled)).getD false),
      verbosity_level := verbosity?.getD ((current.map (fun c => c.verbosity_level)).getD MENTIONED) }
  upsertChannel cid doc chs

/-- Embedding of clem_disabled: the stored disabled flag, falsy when no
record exists. -/
def clem_disabled (chs : ChannelStore) (cid : Nat) : Bool :=
  match get_channel_config chs cid with
  | some c => c.disabled
  | none => false

/-- Embedding of karma_only: whether the stored verbosity level equals
KARMA_ONLY, falsy when no record exists. -/
def karma_only (chs : ChannelStore) (cid : Nat) : Bool :=
  match get_channel_config chs cid with
  | some c => c.verbosity_level == KARMA_ONLY
  | none => false

/-- Embedding of get_verbosity_level: the stored level, MENTIONED when
no record exists. -/
def get_verbosity_level (chs : ChannelStore) (cid : Nat) : Int :=
  match get_channel_config chs cid with
  | some c => c.verbosity_level
  | none => MENTIONED

/-- User-visible messages sent by the set_verbosity command, identified
by kind. -/
inductive SentMsg
  | invalidVerbosity
  | verbositySet (level : Int)
deriving DecidableEq

/-- Embedding of the set_verbosity admin command: reject levels outside
one to three with a validation message and no write, otherwise persist
the level and confirm. -/
def set_verbosity (chs : ChannelStore) (cid : Nat) (level : Int) : ChannelStore × List SentMsg :=
  if ¬(level = 1 ∨ level = 2 ∨ level = 3) then
    (chs, [SentMsg.invalidVerbosity])
  else
    (update_channel_config chs cid none (some level), [SentMsg.verbositySet level])

/-- A stored chat message as consumed by the deduplication check. -/
structure Msg where
  author : List Char
  content : List Char
deriving DecidableEq

/-- Embedding of the duplicate-response check: scan the rolling history
(given oldest first) from newest to oldest for the last non-bot and the
last bot message, and allow sending only when the candidate differs
case-insensitively from the former and case-sensitively from the
latter. -/
def shouldSendResponse (botName : List Char) (hist : List Msg) (resp : List Char) : Bool :=
  let lastUser := hist.reverse.find? (fun m => !(m.author == botName))
  let lastBot := hist.reverse.find? (fun m => m.author == botName)
  (match lastUser with
   | none => true
   | some m => !(lowerL m.content == lowerL resp)) &&
  (match lastBot with
   | none => true
   | some m => !(m.content == resp))

/-- The inputs of one on_message invocation that the modelled control
flow inspects.  The video and url fields abstract the outcome of the
extract_video_id and extract_url regexes on the content. -/
structure MessageCtx where
  authorIsBot : Bool
  isCommand : Bool
  content : List Char
  mentions : List Member
  channelId : Nat
  botMentioned : Bool
  botName : List Char
  newMemberInGeneral : Bool
  hasVideoId : Bool
  hasUrl : Bool

/-- Outcomes of the external collaborators (LLM calls after their retry
wrappers, Discord sends, persistence writes).  An error value models a
raised exception reaching on_message. -/
structure Oracles where
  karmaReadFail : Bool
  karmaWriteFail : Bool
  respondToKarma : Member → Int → Int → Except Unit (List Char)
  sendKarma : List Char → Except Unit Unit
  storeResult : Except Unit Bool
  videoSummary : Option (List Char)
  webSummary : Except Unit (List Char)
  respondToChat : Except Unit (List Char)
  sendChat : List Char → Except Unit Unit

/-- Observable steps of the on_message pipeline, in execution order. -/
inductive Event
  | karmaAnnounce (u : Member) (change : Int) (total : Int) (text : List Char)
  | storeAttempt (ok : Bool)
  | processCommands
  | summaryReply (text : List Char)
  | chatSend (text : List Char)
deriving DecidableEq

/-- The outcome of one on_message invocation: the ordered events, the
final karma ledger, the autonomous chat reply that was sent (if any),
and whether an uncaught exception aborted the handler. -/
structure PipeResult where
  events : List Event
  karma : KarmaStore
  chatSent : Option (List Char)
  aborted : Bool
deriving DecidableEq

/-- The karma-announcement loop of on_message.  The loop body is not
wrapped in an exception handler in the source, so a failed generation
or send aborts the handler (third component true). -/
def karmaLoop (o : Oracles) : List (Member × Int) → KarmaStore → List Event →
    KarmaStore × List Event × Bool
  | [], ks, evs => (ks, evs, false)
  | (u, change) :: rest, ks, evs =>
    let r := update_user_karma_f o.karmaReadFail o.karmaWriteFail ks u.id change
    match o.respondToKarma u change r.2 with
    | Except.error _ => (r.1, evs, true)
    | Except.ok text =>
      match o.sendKarma text with
      | Except.error _ => (r.1, evs, true)
      | Except.ok _ => karmaLoop o rest r.1 (evs ++ [Event.karmaAnnounce u change r.2 text])

/-- The verbosity-gated response decision of on_message: respond always
under UNRESTRICTED, respond under MENTIONED only on a direct mention or
the substring clem in the lowercased content, never otherwise. -/
def should_respond (chs : ChannelStore) (cid : Nat) (botMentioned : Bool) (content : List Char) : Bool :=
  let v := get_verbosity_level chs cid
  if v == UNRESTRICTED then true
  else if v == MENTIONED then botMentioned || containsSeq clemChars (lowerL content)
  else false

/-- Embedding of the on_message event handler of clem.py: the karma
phase, the guarded message-store attempt, command processing, the early
returns, the summary branches, and the verbosity-gated chat response
with the duplicate check.  Python exception propagation is explicit:
only the store attempt and the chat phase are wrapped by handlers in
the source. -/
def on_message (o : Oracles) (ctx : MessageCtx) (chs : ChannelStore) (ks : KarmaStore)
    (hist : List Msg) : PipeResult :=
  let cid := ctx.channelId
  let disabled := clem_disabled chs cid
  let konly := karma_only chs cid
  let kc := process_karma ctx.content ctx.mentions
  let kres := if !kc.isEmpty && !disabled then karmaLoop o kc ks [] else (ks, [], false)
  let ks1 := kres.1
  let evs1 := kres.2.1
  if kres.2.2 then
    { events := evs1, karma := ks1, chatSent := none, aborted := true }
  else
    let storeOk := match o.storeResult with
      | Except.ok b => b
      | Except.error _ => false
    let evs3 := evs1 ++ [Event.storeAttempt storeOk] ++ [Event.processCommands]
    if ctx.authorIsBot || disabled || konly || ctx.isCommand || ctx.newMemberInGeneral then
      { events := evs3, karma := ks1, chatSent := none, aborted := false }
    else if ctx.hasVideoId then
      match o.videoSummary with
      | some s => { events := evs3 ++ [Event.summaryReply s], karma := ks1, chatSent := none, aborted := false }
      | none => { events := evs3, karma := ks1, chatSent := none, aborted := false }
    else if ctx.hasUrl then
      match o.webSummary with
      | Except.error _ => { events := evs3, karma := ks1, chatSent := none, aborted := true }
      | Except.ok s => { events := evs3 ++ [Event.summaryReply s], karma := ks1, chatSent := none, aborted := false }
    else
      if should_respond chs cid ctx.botMentioned ctx.content then
        match o.respondToChat with
        | Except.error _ => { events := evs3, karma := ks1, chatSent := none, aborted := false }
        | Except.ok resp =>
          if shouldSendResponse ctx.botName hist resp then
            match o.sendChat resp with
            | Except.ok _ =>
              { events := evs3 ++ [Event.chatSend resp], karma := ks1, chatSent := some resp, aborted := false }
            | Except.error _ =>
              { events := evs3, karma := ks1, chatSent := none, aborted := false }
          else
            { events := evs3, karma := ks1, chatSent := none, aborted := false }
      else
        { events := evs3, karma := ks1, chatSent := none, aborted := false }

/-- Specification of a successful anchored match of the karma pattern:
the input splits into a mention token in one of the two canonical
forms, a nonempty whitespace run, the nonempty captured sign run
(maximal, because the remainder does not begin with a sign), and the
remainder. -/
def MatchSpec (id s r s' : List Char) : Prop :=
  ∃ bang ws, s = mentionTok bang id ++ ws ++ r ++ s' ∧
    ws ≠ [] ∧ (∀ c ∈ ws, isWs c = true) ∧
    r ≠ [] ∧ (∀ c ∈ r, isPM c = true) ∧
    (∀ c, s'.head? = some c → isPM c = false)

/-- A concrete member used by the closed check instances below. -/
def cexUser : Member :=
  ⟨5, ['b', 'o', 'b']⟩

/-- A concrete message context: a plain user message whose content
awards karma to the mentioned user. -/
def cexCtx : MessageCtx :=
  { authorIsBot := false, isCommand := false,
    content := ['<', '@', '5', '>', ' ', '+', '+'],
    mentions := [cexUser], channelId := 1,
    botMentioned := false, botName := ['c', 'l', 'e', 'm'],
    newMemberInGeneral := false, hasVideoId := false, hasUrl := false }

/-- Oracles in which every external collaborator succeeds. -/
def okOracles : Oracles :=
  { karmaReadFail := false, karmaWriteFail := false,
    respondToKarma := fun _ _ _ => Except.ok ['k'],
    sendKarma := fun _ => Except.ok (),
    storeResult := Except.ok true,
    videoSummary := none,
    webSummary := Except.ok ['w'],
    respondToChat := Except.ok ['r'],
    sendChat := fun _ => Except.ok () }

/-- Oracles in which generating the karma announcement raises. -/
def karmaFailOracles : Oracles :=
  { okOracles with respondToKarma := fun _ _ _ => Except.error () }

/-- A concrete message context whose content awards a lone plus sign,
a zero-magnitude karma change. -/
def cexCtxZero : MessageCtx :=
  { cexCtx with content := ['<', '@', '5', '>', ' ', '+'] }

/-! Lemmas about the scanner components -/

theorem stripLit_some_iff : ∀ (lit s t : List Char), stripLit lit s = some t ↔ s = lit ++ t := by
  intro lit
  induction lit with
  | nil => intro s t; simp [stripLit]
  | cons c cs ih =>
    intro s t
    cases s with
    | nil => simp [stripLit]
    | cons d ds =>
      by_cases h : c = d
      · subst h
        simp [stripLit, ih]
      · simp only [stripLit, if_neg h, List.cons_append]
        constructor
        · intro hh; cases hh
        · intro hh
          injection hh with h1 h2
          exact absurd h1.symm h

theorem takeWhile_dropWhile_append (p : Char → Bool) :
    ∀ (r t : List Char), (∀ c ∈ r, p c = true) → (∀ c, t.head? = some c → p c = false) →
      (r ++ t).takeWhile p = r ∧ (r ++ t).dropWhile p = t := by
  intro r
  induction r with
  | nil =>
    intro t _ ht
    cases t with
    | nil => simp
    | cons c cs =>
      have hc := ht c rfl
      simp [List.takeWhile_cons, List.dropWhile_cons, hc]
  | cons a as ih =>
    intro t hr ht
    have ha : p a = true := hr a (List.mem_cons_self a as)
    have h2 := ih t (fun c hc => hr c (List.mem_cons_of_mem a hc)) ht
    simp [List.takeWhile_cons, List.dropWhile_cons, ha, h2.1, h2.2]

theorem takeWhile1_some_iff (p : Char → Bool) (s r t : List Char) :
    takeWhile1 p s = some (r, t) ↔
      r ≠ [] ∧ (∀ c ∈ r, p c = true) ∧ (∀ c, t.head? = some c → p c = false) ∧ s = r ++ t := by
  constructor
  · intro h
    unfold takeWhile1 at h
    split at h
    · cases h
    · rename_i hne
      simp only [Option.some.injEq, Prod.mk.injEq] at h
      obtain ⟨hr, ht⟩ := h
      subst hr
      subst ht
      refine ⟨hne, ?_, ?_, ?_⟩
      · intro c hc; exact List.mem_takeWhile_imp hc
      · intro c hc
        have h4 := List.head?_dropWhile_not p s
        rw [hc] at h4
        simpa using h4
      · exact (List.takeWhile_append_dropWhile p s).symm
  · rintro ⟨hne, hall, hhd, rfl⟩
    have h2 := takeWhile_dropWhile_append p r t hall hhd
    unfold takeWhile1
    rw [h2.1, h2.2, if_neg hne]

theorem matchIdGt_some_iff (id : List Char) (hid : '!' ∉ id) (s t : List Char) :
    matchIdGt id s = some t ↔ ∃ bang, s = bangOpt bang ++ id ++ '>' :: t := by
  constructor
  · intro h
    unfold matchIdGt at h
    split at h
    · cases h
    · rename_i c s2
      split at h
      · rename_i hc
        subst hc
        split at h
        · rename_i r hr
          injection h with h2
          subst h2
          have h3 := (stripLit_some_iff (id ++ ['>']) s2 r).mp hr
          exact ⟨true, by simp [bangOpt, h3, List.append_assoc]⟩
        · have h3 := (stripLit_some_iff (id ++ ['>']) _ t).mp h
          exact ⟨false, by simp [bangOpt, h3, List.append_assoc]⟩
      · have h3 := (stripLit_some_iff (id ++ ['>']) _ t).mp h
        exact ⟨false, by simp [bangOpt, h3, List.append_assoc]⟩
  · rintro ⟨bang, rfl⟩
    cases bang
    · cases id with
      | nil =>
        have hs : stripLit ['>'] ('>' :: t) = some t :=
          (stripLit_some_iff _ _ _).mpr (by simp)
        simp [bangOpt, matchIdGt, hs]
      | cons d ds =>
        have hd : ¬(d = '!') := fun hh => hid (by rw [← hh]; exact List.mem_cons_self d ds)
        have hs : stripLit ((d :: ds) ++ ['>']) (d :: (ds ++ '>' :: t)) = some t :=
          (stripLit_some_iff _ _ _).mpr (by simp)
        show matchIdGt (d :: ds) (bangOpt false ++ (d :: ds) ++ '>' :: t) = some t
        have hshape : bangOpt false ++ (d :: ds) ++ '>' :: t = d :: (ds ++ '>' :: t) := by
          simp [bangOpt]
        rw [hshape]
        simp only [matchIdGt]
        rw [if_neg hd]
        simpa using hs
    · have hs : stripLit (id ++ ['>']) (id ++ '>' :: t) = some t :=
        (stripLit_some_iff _ _ _).mpr (by simp)
      simp [bangOpt, matchIdGt, hs]

theorem isPM_cases (c : Char) (h : isPM c = true) : c = '+' ∨ c = '-' := by
  simpa [isPM] using h

theorem isWs_false_of_isPM (c : Char) (h : isPM c = true) : isWs c = false := by
  rcases isPM_cases c h with rfl | rfl <;> decide

theorem ne_lt_of_isPM (c : Char) (h : isPM c = true) : ¬(c = '<') := by
  intro he
  subst he
  revert h
  decide

theorem ne_lt_of_isWs (c : Char) (h : isWs c = true) : ¬(c = '<') := by
  intro he
  subst he
  revert h
  decide

theorem matchAt_some_iff (id : List Char) (hid : '!' ∉ id) (s r s' : List Char) :
    matchAt id s = some (r, s') ↔ MatchSpec id s r s' := by
  constructor
  · intro h
    unfold matchAt at h
    split at h
    · cases h
    · rename_i s1 h1
      split at h
      · cases h
      · rename_i s2 h2
        split at h
        · cases h
        · rename_i ws s3 h3
          split at h
          · cases h
          · rename_i run s4 h4
            simp only [Option.some.injEq, Prod.mk.injEq] at h
            obtain ⟨hr, hs4⟩ := h
            subst hr
            subst hs4
            have e1 := (stripLit_some_iff _ _ _).mp h1
            obtain ⟨bang, e2⟩ := (matchIdGt_some_iff id hid _ _).mp h2
            obtain ⟨hws1, hws2, _, e3⟩ := (takeWhile1_some_iff isWs s2 ws s3).mp h3
            obtain ⟨hr1, hr2, hr3, e4⟩ := (takeWhile1_some_iff isPM s3 _ _).mp h4
            refine ⟨bang, ws, ?_, hws1, hws2, hr1, hr2, hr3⟩
            rw [e1, e2, e3, e4]
            simp [mentionTok, List.append_assoc]
  · rintro ⟨bang, ws, rfl, hws1, hws2, hr1, hr2, hr3⟩
    have e1 : stripLit ['<', '@'] (mentionTok bang id ++ ws ++ r ++ s')
        = some (bangOpt bang ++ id ++ '>' :: (ws ++ (r ++ s'))) := by
      apply (stripLit_some_iff _ _ _).mpr
      simp [mentionTok, List.append_assoc]
    have e2 : matchIdGt id (bangOpt bang ++ id ++ '>' :: (ws ++ (r ++ s')))
        = some (ws ++ (r ++ s')) :=
      (matchIdGt_some_iff id hid _ _).mpr ⟨bang, rfl⟩
    have hhd : ∀ c, (r ++ s').head? = some c → isWs c = false := by
      intro c hc
      cases r with
      | nil => exact absurd rfl hr1
      | cons a as =>
        simp only [List.cons_append, List.head?_cons, Option.some.injEq] at hc
        subst hc
        exact isWs_false_of_isPM _ (hr2 _ (List.mem_cons_self _ _))
    have e3 : takeWhile1 isWs (ws ++ (r ++ s')) = some (ws, r ++ s') :=
      (takeWhile1_some_iff isWs _ _ _).mpr ⟨hws1, hws2, hhd, rfl⟩
    have e4 : takeWhile1 isPM (r ++ s') = some (r, s') :=
      (takeWhile1_some_iff isPM _ _ _).mpr ⟨hr1, hr2, hr3, rfl⟩
    simp only [matchAt, e1, e2, e3, e4]

theorem matchAt_some_length (id : List Char) (hid : '!' ∉ id) {s r s' : List Char}
    (h : matchAt id s = some (r, s')) : s'.length < s.length := by
  obtain ⟨bang, ws, rfl, _, _, _, _, _⟩ := (matchAt_some_iff id hid s r s').mp h
  simp only [mentionTok, List.length_append, List.length_cons]
  omega

theorem findRunsAux_fuel (id : List Char) (hid : '!' ∉ id) :
    ∀ f₁ f₂ s, s.length ≤ f₁ → s.length ≤ f₂ →
      findRunsAux id f₁ s = findRunsAux id f₂ s := by
  intro f₁
  induction f₁ with
  | zero =>
    intro f₂ s h1 h2
    have hs : s = [] := List.eq_nil_of_length_eq_zero (Nat.le_zero.mp h1)
    subst hs
    cases f₂ <;> simp [findRunsAux]
  | succ g ih =>
    intro f₂ s h1 h2
    cases s with
    | nil => cases f₂ <;> simp [findRunsAux]
    | cons c rest =>
      cases f₂ with
      | zero => simp at h2
      | succ g2 =>
        cases hm : matchAt id (c :: rest) with
        | none =>
          simp only [findRunsAux, hm]
          exact ih g2 rest (by simp at h1; omega) (by simp at h2; omega)
        | some pr =>
          obtain ⟨run, s'⟩ := pr
          have hlen := matchAt_some_length id hid hm
          simp only [findRunsAux, hm]
          rw [ih g2 s' (by simp at h1 hlen; omega) (by simp at h2 hlen; omega)]

theorem findRuns_cons_some (id : List Char) (hid : '!' ∉ id) (c : Char) (rest r s' : List Char)
    (h : matchAt id (c :: rest) = some (r, s')) :
    findRuns id (c :: rest) = r :: findRuns id s' := by
  have hlen := matchAt_some_length id hid h
  unfold findRuns
  simp only [List.length_cons, findRunsAux, h]
  rw [findRunsAux_fuel id hid rest.length s'.length s' (by simp at hlen; omega) le_rfl]

theorem findRuns_cons_none (id : List Char) (c : Char) (rest : List Char)
    (h : matchAt id (c :: rest) = none) :
    findRuns id (c :: rest) = findRuns id rest := by
  unfold findRuns
  simp only [List.length_cons, findRunsAux, h]

theorem mentionTok_cons (bang : Bool) (id tail : List Char) :
    mentionTok bang id ++ tail
      = '<' :: ('@' :: ((bangOpt bang ++ id ++ ['>']) ++ tail)) := by
  simp [mentionTok, List.cons_append]

theorem findRuns_boundary (id : List Char) (hid : '!' ∉ id)
    (bang : Bool) (ws run b : List Char)
    (hws1 : ws ≠ []) (hws2 : ∀ c ∈ ws, isWs c = true)
    (hr1 : run ≠ []) (hr2 : ∀ c ∈ run, isPM c = true)
    (hb : ∀ c, b.head? = some c → isPM c = false) :
    findRuns id (mentionTok bang id ++ ws ++ run ++ b) = run :: findRuns id b := by
  have hmt : matchAt id (mentionTok bang id ++ ws ++ run ++ b) = some (run, b) :=
    (matchAt_some_iff id hid _ _ _).mpr ⟨bang, ws, rfl, hws1, hws2, hr1, hr2, hb⟩
  have hsh : mentionTok bang id ++ ws ++ run ++ b
      = '<' :: ('@' :: ((bangOpt bang ++ id ++ ['>']) ++ (ws ++ run ++ b))) := by
    simp [mentionTok, List.cons_append, List.append_assoc]
  rw [hsh] at hmt ⊢
  exact findRuns_cons_some id hid _ _ _ _ hmt

theorem lt_not_mem_match_tail (id : List Char) (hid2 : '<' ∉ id) (bang : Bool) (ws r : List Char)
    (hws : ∀ c ∈ ws, isWs c = true) (hr : ∀ c ∈ r, isPM c = true) :
    ('<' : Char) ∉ ('@' :: (bangOpt bang ++ id ++ ['>'])) ++ ws ++ r := by
  intro h
  rcases List.mem_append.mp h with h | h
  · rcases List.mem_append.mp h with h | h
    · rcases List.mem_cons.mp h with h | h
      · exact absurd h (by decide)
      · rcases List.mem_append.mp h with h | h
        · rcases List.mem_append.mp h with h | h
          · cases bang
            · simp [bangOpt] at h
            · simp only [bangOpt, if_pos, List.mem_singleton] at h
              exact absurd h (by decide)
          · exact hid2 h
        · exact absurd (List.mem_singleton.mp h) (by decide)
    · exact absurd rfl (ne_lt_of_isWs '<' (hws '<' h))
  · exact absurd rfl (ne_lt_of_isPM '<' (hr '<' h))

theorem findRuns_decompose_aux (id : List Char) (hid : '!' ∉ id) (hid2 : '<' ∉ id)
    (bang : Bool) (ws run b : List Char)
    (hws1 : ws ≠ []) (hws2 : ∀ c ∈ ws, isWs c = true)
    (hr1 : run ≠ []) (hr2 : ∀ c ∈ run, isPM c = true)
    (hb : ∀ c, b.head? = some c → isPM c = false) :
    ∀ n x, x.length ≤ n →
      findRuns id (x ++ (mentionTok bang id ++ ws ++ run ++ b))
        = findRuns id x ++ run :: findRuns id b := by
  have hbnd := findRuns_boundary id hid bang ws run b hws1 hws2 hr1 hr2 hb
  have hThead : (mentionTok bang id ++ ws ++ run ++ b).head? = some '<' := by
    simp [mentionTok, List.cons_append]
  intro n
  induction n with
  | zero =>
    intro x hx
    have hxe : x = [] := List.eq_nil_of_length_eq_zero (Nat.le_zero.mp hx)
    subst hxe
    simpa [List.append_assoc] using hbnd
  | succ k ih =>
    intro x hx
    cases x with
    | nil => simpa [List.append_assoc] using hbnd
    | cons c x' =>
      cases hm : matchAt id ((c :: x') ++ (mentionTok bang id ++ ws ++ run ++ b)) with
      | some pr =>
        obtain ⟨r, s'⟩ := pr
        obtain ⟨bang2, ws2, heq, hws1', hws2', hr1', hr2', hr3'⟩ :=
          (matchAt_some_iff id hid _ _ _).mp hm
        rcases List.append_eq_append_iff.mp heq with ⟨a', ha1, ha2⟩ | ⟨x'', hx2, hs2⟩
        · -- the matched span reaches to or beyond the boundary
          cases a' with
          | nil =>
            -- the match consumes exactly the prefix before the boundary
            simp only [List.append_nil] at ha1
            simp only [List.nil_append] at ha2
            have hmx : matchAt id (c :: x') = some (r, []) := by
              apply (matchAt_some_iff id hid _ _ _).mpr
              refine ⟨bang2, ws2, ?_, hws1', hws2', hr1', hr2', ?_⟩
              · rw [List.append_nil]
                exact ha1.symm
              · intro cc hcc
                simp at hcc
            have h1 := findRuns_cons_some id hid c
              (x' ++ (mentionTok bang id ++ ws ++ run ++ b)) r s'
              (by rw [← List.cons_append]; exact hm)
            have h2 := findRuns_cons_some id hid c x' r [] hmx
            rw [List.cons_append, h1, h2, ← ha2, hbnd]
            simp [findRuns, findRunsAux]
          | cons d ds =>
            -- impossible: the boundary bracket would sit inside the matched span
            exfalso
            have hd : d = '<' := by
              have h5 := congrArg List.head? ha2
              rw [hThead] at h5
              simp only [List.cons_append, List.head?_cons, Option.some.injEq] at h5
              exact h5.symm
            subst hd
            have hsh : mentionTok bang2 id ++ ws2 ++ r
                = '<' :: (('@' :: (bangOpt bang2 ++ id ++ ['>'])) ++ ws2 ++ r) := by
              simp [mentionTok, List.cons_append, List.append_assoc]
            have h6 : '<' :: (('@' :: (bangOpt bang2 ++ id ++ ['>'])) ++ ws2 ++ r)
                = (c :: x') ++ '<' :: ds := by
              rw [← hsh]
              exact ha1
            have h7 := congrArg List.tail h6
            simp only [List.cons_append, List.tail_cons] at h7
            have hmem : ('<' : Char) ∈ '@' :: (bangOpt bang2 ++ id ++ ['>'] ++ ws2 ++ r) := by
              rw [h7]
              exact List.mem_append_right _ (List.mem_cons_self _ _)
            exact lt_not_mem_match_tail id hid2 bang2 ws2 r hws2' hr2'
              (by simpa [List.cons_append, List.append_assoc] using hmem)
        · -- the match lies inside the prefix before the boundary
          have hmx : matchAt id (c :: x') = some (r, x'') := by
            apply (matchAt_some_iff id hid _ _ _).mpr
            refine ⟨bang2, ws2, hx2, hws1', hws2', hr1', hr2', ?_⟩
            intro cc hcc
            apply hr3' cc
            rw [hs2]
            cases x'' with
            | nil => simp at hcc
            | cons e es => simpa using hcc
          have hxlen : x''.length ≤ k := by
            have h8 := congrArg List.length hx2
            simp only [mentionTok, List.length_append, List.length_cons] at h8
            simp only [List.length_cons] at hx
            omega
          have h1 := findRuns_cons_some id hid c
            (x' ++ (mentionTok bang id ++ ws ++ run ++ b)) r s'
            (by rw [← List.cons_append]; exact hm)
          have h2 := findRuns_cons_some id hid c x' r x'' hmx
          rw [List.cons_append, h1, h2, hs2, ih x'' hxlen]
          simp
      | none =>
        have hmx : matchAt id (c :: x') = none := by
          cases hmx2 : matchAt id (c :: x') with
          | none => rfl
          | some pr2 =>
            exfalso
            obtain ⟨r2, x2⟩ := pr2
            obtain ⟨bang3, ws3, heq3, h31, h32, h33, h34, h35⟩ :=
              (matchAt_some_iff id hid _ _ _).mp hmx2
            have h9 : matchAt id ((c :: x') ++ (mentionTok bang id ++ ws ++ run ++ b))
                = some (r2, x2 ++ (mentionTok bang id ++ ws ++ run ++ b)) := by
              apply (matchAt_some_iff id hid _ _ _).mpr
              refine ⟨bang3, ws3, by rw [heq3]; simp [List.append_assoc], h31, h32, h33, h34, ?_⟩
              intro cc hcc
              cases x2 with
              | nil =>
                simp only [List.nil_append] at hcc
                rw [hThead] at hcc
                injection hcc with hcc2
                subst hcc2
                decide
              | cons e es =>
                apply h35 cc
                simpa using hcc
            rw [h9] at hm
            cases hm
        have h1 := findRuns_cons_none id c (x' ++ (mentionTok bang id ++ ws ++ run ++ b))
          (by rw [← List.cons_append]; exact hm)
        have h2 := findRuns_cons_none id c x' hmx
        rw [List.cons_append, h1, h2]
        apply ih
        simp only [List.length_cons] at hx
        omega

theorem findRuns_decompose (id : List Char) (hid : '!' ∉ id) (hid2 : '<' ∉ id)
    (bang : Bool) (x ws run b : List Char)
    (hws1 : ws ≠ []) (hws2 : ∀ c ∈ ws, isWs c = true)
    (hr1 : run ≠ []) (hr2 : ∀ c ∈ run, isPM c = true)
    (hb : ∀ c, b.head? = some c → isPM c = false) :
    findRuns id (x ++ (mentionTok bang id ++ ws ++ run ++ b))
      = findRuns id x ++ run :: findRuns id b :=
  findRuns_decompose_aux id hid hid2 bang ws run b hws1 hws2 hr1 hr2 hb x.length x le_rfl

/-! Lemmas about the extractor dictionary and delta sums -/

theorem foldl_add_runDelta (l : List (List Char)) : ∀ x : Int,
    l.foldl (fun a r => a + runDelta r) x = x + sumDeltas l := by
  induction l with
  | nil => intro x; simp [sumDeltas]
  | cons r rs ih =>
    intro x
    simp only [List.foldl_cons, sumDeltas] at ih ⊢
    rw [ih (x + runDelta r), ih (0 + runDelta r)]
    ring

theorem sumDeltas_cons (r : List Char) (rs : List (List Char)) :
    sumDeltas (r :: rs) = runDelta r + sumDeltas rs := by
  show (r :: rs).foldl (fun a r => a + runDelta r) 0 = runDelta r + sumDeltas rs
  rw [List.foldl_cons, foldl_add_runDelta]
  ring

theorem sumDeltas_append (l1 l2 : List (List Char)) :
    sumDeltas (l1 ++ l2) = sumDeltas l1 + sumDeltas l2 := by
  show (l1 ++ l2).foldl (fun a r => a + runDelta r) 0 = _
  rw [List.foldl_append, foldl_add_runDelta]
  rfl

theorem dictGet_nil (k : Member) : dictGet k [] = none := rfl

theorem dictGet_dictSet_self (k : Member) (v : Int) : ∀ l, dictGet k (dictSet k v l) = some v := by
  intro l
  induction l with
  | nil => simp [dictGet, dictSet]
  | cons p rest ih =>
    obtain ⟨k', v'⟩ := p
    by_cases h : k' = k
    · subst h
      simp [dictSet, dictGet]
    · have hb : (k' == k) = false := by simpa using h
      simp only [dictSet, hb, Bool.false_eq_true, if_false, dictGet]
      exact ih

theorem dictGet_dictSet_ne (k k' : Member) (hne : k' ≠ k) (v : Int) :
    ∀ l, dictGet k (dictSet k' v l) = dictGet k l := by
  intro l
  have hb : (k' == k) = false := by simpa using hne
  induction l with
  | nil => simp [dictGet, dictSet, hb]
  | cons p rest ih =>
    obtain ⟨k₂, v₂⟩ := p
    by_cases h : k₂ = k'
    · subst h
      simp only [dictSet, beq_self_eq_true, if_pos, dictGet, hb, Bool.false_eq_true, if_false]
    · have hb2 : (k₂ == k') = false := by simpa using h
      simp only [dictSet, hb2, Bool.false_eq_true, if_false, dictGet]
      by_cases h2 : k₂ = k
      · subst h2
        simp
      · have hb3 : (k₂ == k) = false := by simpa using h2
        simp only [hb3, Bool.false_eq_true, if_false]
        exact ih

theorem dictGet_innerFold_ne (u u' : Member) (h : u ≠ u') : ∀ runs kc,
    dictGet u (innerFold u' runs kc) = dictGet u kc := by
  intro runs
  induction runs with
  | nil => intro kc; rfl
  | cons r rs ih =>
    intro kc
    show dictGet u (innerFold u' rs (dictSet u' _ kc)) = dictGet u kc
    rw [ih (dictSet u' _ kc)]
    exact dictGet_dictSet_ne u u' (Ne.symm h) _ kc

theorem dictGet_innerFold_self (u : Member) : ∀ runs kc,
    dictGet u (innerFold u runs kc) =
      if runs = [] then dictGet u kc
      else some ((dictGet u kc).getD 0 + sumDeltas runs) := by
  intro runs
  induction runs with
  | nil => intro kc; rfl
  | cons r rs ih =>
    intro kc
    rw [if_neg (List.cons_ne_nil r rs)]
    show dictGet u (innerFold u rs (dictSet u ((dictGet u kc).getD 0 + runDelta r) kc)) = _
    rw [ih (dictSet u ((dictGet u kc).getD 0 + runDelta r) kc)]
    by_cases hrs : rs = []
    · subst hrs
      rw [if_pos rfl, dictGet_dictSet_self, sumDeltas_cons]
      show _ = some ((dictGet u kc).getD 0 + (runDelta r + sumDeltas []))
      have hz : sumDeltas [] = 0 := rfl
      rw [hz]
      congr 1
      ring
    · rw [if_neg hrs, dictGet_dictSet_self, sumDeltas_cons]
      simp only [Option.getD_some]
      congr 1
      ring

theorem dictGet_outerFold_not_mem (content : List Char) (u : Member) : ∀ ms kc, u ∉ ms →
    dictGet u (outerFoldKarma content ms kc) = dictGet u kc := by
  intro ms
  induction ms with
  | nil => intro kc _; rfl
  | cons m rest ih =>
    intro kc hmem
    show dictGet u (outerFoldKarma content rest (innerFold m _ kc)) = dictGet u kc
    rw [ih _ (fun h => hmem (List.mem_cons_of_mem m h))]
    exact dictGet_innerFold_ne u m
      (fun h => hmem (by rw [h]; exact List.mem_cons_self m rest)) _ _

theorem dictGet_outerFold_count_one (content : List Char) (u : Member) :
    ∀ ms kc, ms.count u = 1 → dictGet u kc = none →
      dictGet u (outerFoldKarma content ms kc) =
        if findRuns (natChars u.id) content = [] then none
        else some (userDelta (natChars u.id) content) := by
  intro ms
  induction ms with
  | nil => intro kc h _; simp [List.count_nil] at h
  | cons m rest ih =>
    intro kc hcount hget
    by_cases hum : m = u
    · subst hum
      have hzero : rest.count m = 0 := by
        rw [List.count_cons_self] at hcount
        omega
      have hrest : m ∉ rest := by
        rw [← List.count_pos_iff]
        omega
      show dictGet m (outerFoldKarma content rest (innerFold m _ kc)) = _
      rw [dictGet_outerFold_not_mem content m rest _ hrest]
      rw [dictGet_innerFold_self, hget]
      by_cases hr : findRuns (natChars m.id) content = []
      · rw [if_pos hr, if_pos hr]
      · rw [if_neg hr, if_neg hr]
        simp [userDelta]
    · have hne : u ≠ m := fun h => hum h.symm
      show dictGet u (outerFoldKarma content rest (innerFold m _ kc)) = _
      apply ih
      · rw [List.count_cons_of_ne (fun h => hum h.symm) ] at hcount
        exact hcount
      · rw [dictGet_innerFold_ne u m hne, hget]

theorem process_karma_dictGet (content : List Char) (u : Member) (mentions : List Member)
    (hcount : mentions.count u = 1) :
    dictGet u (process_karma content mentions) =
      if findRuns (natChars u.id) content = [] then none
      else some (userDelta (natChars u.id) content) :=
  dictGet_outerFold_count_one content u mentions [] hcount rfl

/-! The interpolated user id consists of digits -/

theorem digitChar_isDigit (n : Nat) (h : n < 10) : (digitChar n).isDigit = true := by
  interval_cases n <;> decide

theorem natCharsAux_digits : ∀ f n, n < f →
    natCharsAux f n ≠ [] ∧ ∀ c ∈ natCharsAux f n, c.isDigit = true := by
  intro f
  induction f with
  | zero => intro n h; omega
  | succ g ih =>
    intro n h
    by_cases h10 : n < 10
    · simp only [natCharsAux, if_pos h10]
      refine ⟨by simp, ?_⟩
      intro c hc
      rw [List.mem_singleton.mp hc]
      exact digitChar_isDigit n h10
    · simp only [natCharsAux, if_neg h10]
      have hd : n / 10 < g := by omega
      obtain ⟨h1, h2⟩ := ih (n / 10) hd
      refine ⟨by simp, ?_⟩
      intro c hc
      rcases List.mem_append.mp hc with hc | hc
      · exact h2 c hc
      · rw [List.mem_singleton.mp hc]
        exact digitChar_isDigit _ (Nat.mod_lt n (by norm_num))

theorem natChars_ne_nil (n : Nat) : natChars n ≠ [] :=
  (natCharsAux_digits (n + 1) n (Nat.lt_succ_self n)).1

theorem natChars_all_digits (n : Nat) : ∀ c ∈ natChars n, c.isDigit = true :=
  (natCharsAux_digits (n + 1) n (Nat.lt_succ_self n)).2

theorem bang_not_mem_natChars (n : Nat) : '!' ∉ natChars n := by
  intro h
  exact absurd (natChars_all_digits n '!' h) (by decide)

theorem lt_not_mem_natChars (n : Nat) : '<' ∉ natChars n := by
  intro h
  exact absurd (natChars_all_digits n '<' h) (by decide)

/-! Extractor results for a decomposed message -/

theorem runDelta_pure (run : List Char) (hrun : run ≠ [])
    (hsign : (∀ c ∈ run, c = '+') ∨ (∀ c ∈ run, c = '-')) :
    runDelta run = (if ∀ c ∈ run, c = '-' then -((run.length / 2 : Nat) : Int)
      else ((run.length / 2 : Nat) : Int)) := by
  cases run with
  | nil => exact absurd rfl hrun
  | cons c cs =>
    rcases hsign with hs | hs
    · have hc := hs c (List.mem_cons_self c cs)
      have hneg : ¬(∀ d ∈ c :: cs, d = '-') := by
        intro hall
        have h2 := hall c (List.mem_cons_self c cs)
        rw [hc] at h2
        exact absurd h2 (by decide)
      rw [if_neg hneg]
      simp only [runDelta, List.head?_cons, hc]
      rw [if_neg (by decide)]
    · have hc := hs c (List.mem_cons_self c cs)
      rw [if_pos hs]
      simp only [runDelta, List.head?_cons, hc]
      rw [if_pos (by decide)]

theorem isPM_of_sign (run : List Char)
    (hsign : (∀ c ∈ run, c = '+') ∨ (∀ c ∈ run, c = '-')) :
    ∀ c ∈ run, isPM c = true := by
  intro c hc
  rcases hsign with hs | hs
  · rw [hs c hc]; rfl
  · rw [hs c hc]; rfl

/-- C1 helper: the extractor dictionary entry for a user whose mention
is followed by whitespace and a maximal sign run. -/
theorem process_karma_run_split (u : Member) (mentions : List Member)
    (a ws run b : List Char) (bang : Bool)
    (hcount : mentions.count u = 1)
    (hws1 : ws ≠ []) (hws2 : ∀ c ∈ ws, isWs c = true)
    (hrun : run ≠ []) (hpm : ∀ c ∈ run, isPM c = true)
    (hb : ∀ c, b.head? = some c → isPM c = false) :
    dictGet u (process_karma (a ++ (mentionTok bang (natChars u.id) ++ ws ++ run ++ b)) mentions)
      = some (userDelta (natChars u.id) a + runDelta run + userDelta (natChars u.id) b) := by
  have hid := bang_not_mem_natChars u.id
  have hid2 := lt_not_mem_natChars u.id
  have hdec := findRuns_decompose (natChars u.id) hid hid2 bang a ws run b hws1 hws2 hrun hpm hb
  rw [process_karma_dictGet _ u mentions hcount]
  rw [if_neg (by rw [hdec]; simp)]
  unfold userDelta
  rw [hdec, sumDeltas_append, sumDeltas_cons]
  congr 1
  ring

/-- C1: for every message content containing a mention token for a
mentioned user followed by one or more whitespace characters and a
maximal run of k plus signs, process_karma assigns that user a delta of
k divided by two rounded down (negated for a run of minus signs), and
the deltas of the remaining runs referencing the same user elsewhere in
the message are summed into the same single aggregate entry. -/
theorem process_karma_pure_run_delta (u : Member) (mentions : List Member)
    (a ws run b : List Char) (bang : Bool)
    (hcount : mentions.count u = 1)
    (hws1 : ws ≠ []) (hws2 : ∀ c ∈ ws, isWs c = true)
    (hrun : run ≠ [])
    (hsign : (∀ c ∈ run, c = '+') ∨ (∀ c ∈ run, c = '-'))
    (hb : ∀ c, b.head? = some c → isPM c = false) :
    dictGet u (process_karma (a ++ (mentionTok bang (natChars u.id) ++ ws ++ run ++ b)) mentions)
      = some (userDelta (natChars u.id) a
          + (if ∀ c ∈ run, c = '-' then -((run.length / 2 : Nat) : Int)
             else ((run.length / 2 : Nat) : Int))
          + userDelta (natChars u.id) b) := by
  rw [process_karma_run_split u mentions a ws run b bang hcount hws1 hws2 hrun
    (isPM_of_sign run hsign) hb]
  rw [runDelta_pure run hrun hsign]

/-- C1 witness: the message awarding four plus signs to user 5 yields
the aggregate entry two. -/
theorem process_karma_pure_run_delta_witness :
    dictGet cexUser (process_karma ['<', '@', '5', '>', ' ', '+', '+', '+', '+'] [cexUser])
      = some 2 := by
  have h := process_karma_pure_run_delta cexUser [cexUser] [] [' '] ['+', '+', '+', '+'] [] false
    (by decide) (by decide) (by decide) (by decide) (Or.inl (by decide)) (by decide)
  have h2 : ([] : List Char) ++ (mentionTok false (natChars cexUser.id) ++ [' ']
      ++ ['+', '+', '+', '+'] ++ []) = ['<', '@', '5', '>', ' ', '+', '+', '+', '+'] := by decide
  rw [h2] at h
  rw [h]
  decide

/-- C9: the karma pattern also matches a run mixing plus and minus
signs; the whole mixed run counts toward the magnitude (half the run
length rounded down), and the sign of the delta is determined solely by
the first character of the run. -/
theorem process_karma_mixed_run_delta (u : Member) (mentions : List Member)
    (a ws run b : List Char) (bang : Bool)
    (hcount : mentions.count u = 1)
    (hws1 : ws ≠ []) (hws2 : ∀ c ∈ ws, isWs c = true)
    (hrun : run ≠ [])
    (hpm : ∀ c ∈ run, isPM c = true)
    (hb : ∀ c, b.head? = some c → isPM c = false) :
    dictGet u (process_karma (a ++ (mentionTok bang (natChars u.id) ++ ws ++ run ++ b)) mentions)
      = some (userDelta (natChars u.id) a
          + (if run.head? = some '-' then -((run.length / 2 : Nat) : Int)
             else ((run.length / 2 : Nat) : Int))
          + userDelta (natChars u.id) b) := by
  rw [process_karma_run_split u mentions a ws run b bang hcount hws1 hws2 hrun hpm hb]
  rfl

/-- C9 witness: the mixed run plus-minus-plus-minus after a mention of
user 5 counts as a whole run of length four with positive sign, delta
two. -/
theorem process_karma_mixed_run_delta_witness :
    dictGet cexUser (process_karma ['<', '@', '!', '5', '>', ' ', '+', '-', '+', '-'] [cexUser])
      = some 2 := by
  have h := process_karma_mixed_run_delta cexUser [cexUser] [] [' '] ['+', '-', '+', '-'] [] true
    (by decide) (by decide) (by decide) (by decide) (by decide) (by decide)
  have h2 : ([] : List Char) ++ (mentionTok true (natChars cexUser.id) ++ [' ']
      ++ ['+', '-', '+', '-'] ++ []) = ['<', '@', '!', '5', '>', ' ', '+', '-', '+', '-'] := by decide
  rw [h2] at h
  rw [h]
  decide

/-! Karma ledger -/

theorem lookupKarma_upsert_self (uid : Nat) (v : Int) :
    ∀ ks, lookupKarma uid (upsertKarma uid v ks) = some v := by
  intro ks
  induction ks with
  | nil => simp [upsertKarma, lookupKarma]
  | cons p rest ih =>
    obtain ⟨k, w⟩ := p
    by_cases h : k = uid
    · subst h
      simp [upsertKarma, lookupKarma]
    · have hb : (k == uid) = false := by simpa using h
      simp only [upsertKarma, hb, Bool.false_eq_true, if_false, lookupKarma]
      exact ih

theorem get_user_karma_update (ks : KarmaStore) (uid : Nat) (change : Int) :
    (update_user_karma ks uid change).2 = get_user_karma ks uid + change
      ∧ get_user_karma (update_user_karma ks uid change).1 uid
          = get_user_karma ks uid + change := by
  refine ⟨rfl, ?_⟩
  show (lookupKarma uid (upsertKarma uid (get_user_karma ks uid + change) ks)).getD 0 = _
  rw [lookupKarma_upsert_self]
  rfl

theorem apply_deltas_get (uid : Nat) : ∀ (ds : List Int) (ks : KarmaStore),
    get_user_karma (apply_deltas uid ds ks) uid = get_user_karma ks uid + ds.sum := by
  intro ds
  induction ds with
  | nil => intro ks; simp [apply_deltas]
  | cons d rest ih =>
    intro ks
    show get_user_karma (apply_deltas uid rest (update_user_karma ks uid d).1) uid = _
    rw [ih, (get_user_karma_update ks uid d).2, List.sum_cons]
    ring

/-- C2: the ledger apply operation reads the current stored total (zero
if no record exists), adds the delta, persists the new total and
returns it; consequently applying a sequence of deltas to a fresh user
yields their sum. -/
theorem update_karma_ledger_spec :
    (∀ (ks : KarmaStore) (uid : Nat) (change : Int),
        (update_user_karma ks uid change).2 = get_user_karma ks uid + change
          ∧ get_user_karma (update_user_karma ks uid change).1 uid
              = get_user_karma ks uid + change)
    ∧ ∀ (ks : KarmaStore) (uid : Nat) (ds : List Int), lookupKarma uid ks = none →
        get_user_karma (apply_deltas uid ds ks) uid = ds.sum := by
  refine ⟨get_user_karma_update, ?_⟩
  intro ks uid ds hfresh
  rw [apply_deltas_get]
  unfold get_user_karma
  rw [hfresh]
  simp

/-- C2 witness: applying two, minus one, five to a fresh user yields
six, and a single application returns old total plus delta. -/
theorem update_karma_ledger_spec_witness :
    get_user_karma (apply_deltas 7 [2, -1, 5] []) 7 = 6
      ∧ (update_user_karma [(7, 4)] 7 3).2 = 7 := by
  constructor
  · have h := update_karma_ledger_spec.2 [] 7 [2, -1, 5] rfl
    rw [h]
    decide
  · have h := (update_karma_ledger_spec.1 [(7, 4)] 7 3).1
    rw [h]
    decide

/-! Channel settings -/

theorem lookupChannel_upsert_self (cid : Nat) (cfg : ChannelConfig) :
    ∀ chs, lookupChannel cid (upsertChannel cid cfg chs) = some cfg := by
  intro chs
  induction chs with
  | nil => simp [upsertChannel, lookupChannel]
  | cons p rest ih =>
    obtain ⟨k, w⟩ := p
    by_cases h : k = cid
    · subst h
      simp [upsertChannel, lookupChannel]
    · have hb : (k == cid) = false := by simpa using h
      simp only [upsertChannel, hb, Bool.false_eq_true, if_false, lookupChannel]
      exact ih

/-- C7: a channel with no stored settings record behaves as the
defaults: not disabled, not karma-only, verbosity MENTIONED. -/
theorem absent_settings_defaults (chs : ChannelStore) (cid : Nat)
    (h : get_channel_config chs cid = none) :
    clem_disabled chs cid = false ∧ karma_only chs cid = false
      ∧ get_verbosity_level chs cid = MENTIONED := by
  unfold clem_disabled karma_only get_verbosity_level
  rw [h]
  exact ⟨rfl, rfl, rfl⟩

/-- C7 witness: the empty settings store has the default behaviour. -/
theorem absent_settings_defaults_witness :
    clem_disabled [] 0 = false ∧ karma_only [] 0 = false
      ∧ get_verbosity_level [] 0 = MENTIONED :=
  absent_settings_defaults [] 0 rfl

/-- C8: set_verbosity rejects a level outside one to three with a
validation message and no write to the settings store, and for a level
in range persists the level and sends exactly one confirmation. -/
theorem set_verbosity_validation : ∀ (chs : ChannelStore) (cid : Nat) (level : Int),
    (¬(level = 1 ∨ level = 2 ∨ level = 3) →
        set_verbosity chs cid level = (chs, [SentMsg.invalidVerbosity]))
    ∧ ((level = 1 ∨ level = 2 ∨ level = 3) →
        (set_verbosity chs cid level).2 = [SentMsg.verbositySet level]
          ∧ (get_channel_config (set_verbosity chs cid level).1 cid).map
              (fun c => c.verbosity_level) = some level) := by
  intro chs cid level
  constructor
  · intro h
    rw [set_verbosity, if_pos h]
  · intro h
    rw [set_verbosity, if_neg (not_not_intro h)]
    refine ⟨rfl, ?_⟩
    show (get_channel_config (update_channel_config chs cid none (some level)) cid).map _ = _
    unfold update_channel_config get_channel_config
    rw [lookupChannel_upsert_self]
    rfl

/-- C8 witness: level seven is rejected without a write, level two is
persisted with one confirmation. -/
theorem set_verbosity_validation_witness :
    set_verbosity [] 5 7 = ([], [SentMsg.invalidVerbosity])
      ∧ (set_verbosity [] 5 2).2 = [SentMsg.verbositySet 2]
      ∧ (get_channel_config (set_verbosity [] 5 2).1 5).map
          (fun c => c.verbosity_level) = some 2 := by
  refine ⟨(set_verbosity_validation [] 5 7).1 (by decide), ?_⟩
  exact (set_verbosity_validation [] 5 2).2 (by decide)

/-! Substring containment and the verbosity gate -/

theorem isPrefixOf_iff_exists (n : List Char) : ∀ h, n.isPrefixOf h = true ↔ ∃ t, h = n ++ t := by
  induction n with
  | nil =>
    intro h
    simp only [List.isPrefixOf, List.nil_append]
    exact ⟨fun _ => ⟨h, rfl⟩, fun _ => by trivial⟩
  | cons c cs ih =>
    intro h
    cases h with
    | nil =>
      simp only [List.isPrefixOf]
      constructor
      · intro hh; cases hh
      · rintro ⟨t, ht⟩; cases ht
    | cons d ds =>
      simp only [List.isPrefixOf, Bool.and_eq_true, beq_iff_eq, ih ds, List.cons_append]
      constructor
      · rintro ⟨rfl, t, rfl⟩
        exact ⟨t, rfl⟩
      · rintro ⟨t, ht⟩
        injection ht with h1 h2
        exact ⟨h1.symm, t, h2⟩

theorem containsSeq_iff_exists (n : List Char) :
    ∀ h, containsSeq n h = true ↔ ∃ x y, h = x ++ n ++ y := by
  intro h
  induction h with
  | nil =>
    simp only [containsSeq, List.isEmpty_iff]
    constructor
    · rintro rfl
      exact ⟨[], [], rfl⟩
    · rintro ⟨x, y, hxy⟩
      have := hxy.symm
      simp only [List.append_assoc, List.append_eq_nil] at this
      exact this.2.1
  | cons c t ih =>
    simp only [containsSeq, Bool.or_eq_true, ih, isPrefixOf_iff_exists]
    constructor
    · rintro (⟨s, hs⟩ | ⟨x, y, hxy⟩)
      · exact ⟨[], s, by simp [hs]⟩
      · exact ⟨c :: x, y, by simp [hxy]⟩
    · rintro ⟨x, y, hxy⟩
      cases x with
      | nil => exact Or.inl ⟨y, by simpa using hxy⟩
      | cons e es =>
        right
        simp only [List.cons_append] at hxy
        injection hxy with h1 h2
        exact ⟨es, y, h2⟩

/-- C4: in a non-disabled, non-karma-only channel at verbosity level
MENTIONED, the response decision is true exactly when the bot account
is directly mentioned or the substring clem occurs (case-insensitively)
in the message text. -/
theorem mentioned_policy_iff (chs : ChannelStore) (cid : Nat) (botMentioned : Bool)
    (content : List Char) (cfg : ChannelConfig)
    (hcfg : get_channel_config chs cid = some cfg)
    (_hdis : cfg.disabled = false)
    (hv : cfg.verbosity_level = MENTIONED) :
    should_respond chs cid botMentioned content = true ↔
      (botMentioned = true ∨ ∃ x y, lowerL content = x ++ clemChars ++ y) := by
  have hval : get_verbosity_level chs cid = MENTIONED := by
    unfold get_verbosity_level
    rw [hcfg]
    exact hv
  simp only [should_respond, hval]
  rw [if_neg (by decide), if_pos (by decide)]
  simp only [Bool.or_eq_true, containsSeq_iff_exists]

/-- C4 witness: with stored MENTIONED settings, a message containing
the substring clem in mixed case triggers a reply and a message
without it and without a mention does not. -/
theorem mentioned_policy_iff_witness :
    (should_respond [(9, ⟨false, 2⟩)] 9 false ['h', 'i', ' ', 'C', 'L', 'e', 'm'] = true
      ↔ ((false : Bool) = true ∨ ∃ x y,
          lowerL ['h', 'i', ' ', 'C', 'L', 'e', 'm'] = x ++ clemChars ++ y))
    ∧ should_respond [(9, ⟨false, 2⟩)] 9 false ['h', 'i'] = false := by
  constructor
  · exact mentioned_policy_iff [(9, ⟨false, 2⟩)] 9 false ['h', 'i', ' ', 'C', 'L', 'e', 'm']
      ⟨false, 2⟩ rfl rfl rfl
  · have h := mentioned_policy_iff [(9, ⟨false, 2⟩)] 9 false ['h', 'i'] ⟨false, 2⟩ rfl rfl rfl
    by_contra hc
    have h2 : should_respond [(9, ⟨false, 2⟩)] 9 false ['h', 'i'] = true := by
      cases hsr : should_respond [(9, ⟨false, 2⟩)] 9 false ['h', 'i']
      · exact absurd hsr hc
      · rfl
    rcases h.mp h2 with h3 | ⟨x, y, h3⟩
    · cases h3
    · have h4 : (lowerL ['h', 'i']).length = (x ++ clemChars ++ y).length := by rw [h3]
      simp [lowerL, clemChars, List.length_append] at h4
      omega

/-- C5: the duplicate check suppresses sending exactly when the
candidate equals, case-insensitively, the content of the most recent
non-bot message, or equals, case-sensitively, the content of the most
recent bot message, each found scanning the history newest to oldest;
otherwise the candidate is sent. -/
theorem dedup_suppress_iff (botName : List Char) (hist : List Msg) (resp : List Char) :
    shouldSendResponse botName hist resp = false ↔
      ((∃ m, hist.reverse.find? (fun m => !(m.author == botName)) = some m
          ∧ lowerL m.content = lowerL resp)
        ∨ (∃ m, hist.reverse.find? (fun m => m.author == botName) = some m
          ∧ m.content = resp)) := by
  simp only [shouldSendResponse]
  cases h1 : hist.reverse.find? (fun m => !(m.author == botName)) with
  | none =>
    cases h2 : hist.reverse.find? (fun m => m.author == botName) with
    | none => simp
    | some m2 => simp [beq_iff_eq]
  | some m1 =>
    cases h2 : hist.reverse.find? (fun m => m.author == botName) with
    | none => simp [beq_iff_eq]
    | some m2 => simp [beq_iff_eq, Decidable.or_iff_not_imp_left]

/-! The on_message pipeline -/

theorem get_user_karma_upsert_self (ks : KarmaStore) (uid : Nat) (v : Int) :
    get_user_karma (upsertKarma uid v ks) uid = v := by
  unfold get_user_karma
  rw [lookupKarma_upsert_self]
  rfl

/-- C3: in a channel whose stored settings have disabled true, the
handler produces no autonomous chat reply, for every verbosity level,
mention status and oracle behaviour. -/
theorem disabled_channel_no_chat_reply (o : Oracles) (ctx : MessageCtx) (chs : ChannelStore)
    (ks : KarmaStore) (hist : List Msg) (cfg : ChannelConfig)
    (hcfg : get_channel_config chs ctx.channelId = some cfg) (hdis : cfg.disabled = true) :
    (on_message o ctx chs ks hist).chatSent = none := by
  have hd : clem_disabled chs ctx.channelId = true := by
    unfold clem_disabled
    rw [hcfg]
    exact hdis
  simp only [on_message, hd]
  simp [karmaLoop]

/-- C3 witness: a disabled channel with unrestricted verbosity and a
mention still gets no chat reply. -/
theorem disabled_channel_no_chat_reply_witness :
    (on_message okOracles
      { cexCtx with botMentioned := true, channelId := 3 }
      [(3, ⟨true, 3⟩)] [] []).chatSent = none :=
  disabled_channel_no_chat_reply okOracles
    { cexCtx with botMentioned := true, channelId := 3 }
    [(3, ⟨true, 3⟩)] [] [] ⟨true, 3⟩ rfl rfl

/-- C6 counterexample: when generating the karma announcement raises,
the handler aborts before storing the message and before processing
commands, so the subsequent independent steps are skipped. -/
theorem karma_failure_aborts_handler_cex :
    (on_message karmaFailOracles cexCtx [] [] []).aborted = true
      ∧ (∀ flag, Event.storeAttempt flag ∉ (on_message karmaFailOracles cexCtx [] [] []).events)
      ∧ Event.processCommands ∉ (on_message karmaFailOracles cexCtx [] [] []).events := by
  refine ⟨by decide, ?_, by decide⟩
  intro flag
  cases flag <;> decide

theorem karmaLoop_ok_no_abort (o : Oracles)
    (h1 : ∀ u c total, ∃ t, o.respondToKarma u c total = Except.ok t)
    (h2 : ∀ t, o.sendKarma t = Except.ok ()) :
    ∀ kc ks evs, (karmaLoop o kc ks evs).2.2 = false := by
  intro kc
  induction kc with
  | nil => intro ks evs; rfl
  | cons p rest ih =>
    intro ks evs
    obtain ⟨u, change⟩ := p
    obtain ⟨t, ht⟩ :=
      h1 u change (update_user_karma_f o.karmaReadFail o.karmaWriteFail ks u.id change).2
    simp only [karmaLoop, ht, h2 t]
    exact ih _ _

/-- C6 amended: failures while storing the message, while reading or
writing karma totals, or while generating or sending the chat response
are non-fatal and the pipeline still executes the storing and
command-processing steps; but this holds only when every karma
announcement generation and send succeeds, because the karma loop is
not wrapped by an exception handler and a failure there aborts the
handler before those steps. -/
theorem failure_isolation_amended (o : Oracles) (ctx : MessageCtx) (chs : ChannelStore)
    (ks : KarmaStore) (hist : List Msg)
    (h1 : ∀ u c total, ∃ t, o.respondToKarma u c total = Except.ok t)
    (h2 : ∀ t, o.sendKarma t = Except.ok ()) :
    (∃ flag, Event.storeAttempt flag ∈ (on_message o ctx chs ks hist).events)
      ∧ Event.processCommands ∈ (on_message o ctx chs ks hist).events := by
  have hnoabort : (if !(process_karma ctx.content ctx.mentions).isEmpty
        && !(clem_disabled chs ctx.channelId)
      then karmaLoop o (process_karma ctx.content ctx.mentions) ks []
      else (ks, [], false)).2.2 = false := by
    split
    · exact karmaLoop_ok_no_abort o h1 h2 _ _ _
    · rfl
  simp only [on_message, hnoabort, Bool.false_eq_true, if_false]
  refine ⟨⟨(match o.storeResult with | Except.ok b => b | Except.error _ => false), ?_⟩, ?_⟩
  all_goals
    repeat' split
    all_goals simp [List.mem_append]

/-- C6 amended witness: with all external calls succeeding and a karma
change present, the store and command steps both run. -/
theorem failure_isolation_amended_witness :
    (∃ flag, Event.storeAttempt flag ∈ (on_message okOracles cexCtx [] [] []).events)
      ∧ Event.processCommands ∈ (on_message okOracles cexCtx [] [] []).events :=
  failure_isolation_amended okOracles cexCtx [] [] []
    (fun _ _ _ => ⟨['k'], rfl⟩) (fun _ => rfl)

theorem runDelta_single (pm : Char) (hpm : pm = '+' ∨ pm = '-') : runDelta [pm] = 0 := by
  rcases hpm with rfl | rfl <;> decide

/-- C10: a run of exactly one plus or minus sign after a mention yields
a present zero-valued entry, so the mapping is non-empty; in a
non-disabled channel the karma announcement fires for a change of zero
and the stored total is unchanged. -/
theorem zero_delta_entry_announced (u : Member) (pm : Char) (a ws b : List Char) (bang : Bool)
    (o : Oracles) (ctx : MessageCtx) (chs : ChannelStore) (ks : KarmaStore) (hist : List Msg)
    (t : List Char)
    (hpm : pm = '+' ∨ pm = '-')
    (hws1 : ws ≠ []) (hws2 : ∀ c ∈ ws, isWs c = true)
    (hb : ∀ c, b.head? = some c → isPM c = false)
    (ha : findRuns (natChars u.id) a = []) (hbr : findRuns (natChars u.id) b = [])
    (hctx1 : ctx.content = a ++ (mentionTok bang (natChars u.id) ++ ws ++ [pm] ++ b))
    (hctx2 : ctx.mentions = [u])
    (hdis : clem_disabled chs ctx.channelId = false)
    (hread : o.karmaReadFail = false) (hwrite : o.karmaWriteFail = false)
    (hrk : o.respondToKarma u 0 (get_user_karma ks u.id) = Except.ok t)
    (hsend : o.sendKarma t = Except.ok ()) :
    process_karma ctx.content ctx.mentions = [(u, 0)]
      ∧ Event.karmaAnnounce u 0 (get_user_karma ks u.id) t
          ∈ (on_message o ctx chs ks hist).events
      ∧ get_user_karma (on_message o ctx chs ks hist).karma u.id
          = get_user_karma ks u.id := by
  have hruns : findRuns (natChars u.id) ctx.content = [[pm]] := by
    rw [hctx1]
    rw [findRuns_decompose (natChars u.id) (bang_not_mem_natChars u.id)
      (lt_not_mem_natChars u.id) bang a ws [pm] b hws1 hws2 (by simp)
      (by rcases hpm with rfl | rfl <;> decide) hb]
    rw [ha, hbr]
    rfl
  have hpk : process_karma ctx.content ctx.mentions = [(u, 0)] := by
    rw [hctx2]
    show outerFoldKarma ctx.content [] (innerFold u (findRuns (natChars u.id) ctx.content) []) = _
    rw [hruns]
    show dictSet u ((dictGet u []).getD 0 + runDelta [pm]) [] = _
    rw [runDelta_single pm hpm]
    rfl
  have hloop : karmaLoop o [(u, 0)] ks []
      = (upsertKarma u.id (get_user_karma ks u.id) ks,
          [Event.karmaAnnounce u 0 (get_user_karma ks u.id) t], false) := by
    simp only [karmaLoop, update_user_karma_f, hread, hwrite, Bool.false_eq_true, if_false,
      add_zero, hrk, hsend]
    rfl
  refine ⟨hpk, ?_, ?_⟩
  · simp only [on_message, hpk, hdis, Bool.not_false, List.isEmpty_cons, Bool.not_false,
      Bool.and_true, Bool.true_and, if_pos, hloop]
    repeat' split
    all_goals simp [List.mem_append]
  · simp only [on_message, hpk, hdis, Bool.not_false, List.isEmpty_cons, Bool.not_false,
      Bool.and_true, Bool.true_and, if_pos, hloop]
    repeat' split
    all_goals simp [get_user_karma_upsert_self]

/-- C10 witness: the message with a single plus sign for user 5 in an
unconfigured channel produces the zero entry, the zero announcement,
and an unchanged total. -/
theorem zero_delta_entry_announced_witness :
    process_karma cexCtxZero.content cexCtxZero.mentions = [(cexUser, 0)]
      ∧ Event.karmaAnnounce cexUser 0 (get_user_karma [] cexUser.id) ['k']
          ∈ (on_message okOracles cexCtxZero [] [] []).events
      ∧ get_user_karma (on_message okOracles cexCtxZero [] [] []).karma cexUser.id
          = get_user_karma [] cexUser.id :=
  zero_delta_entry_announced cexUser '+' [] [' '] [] false okOracles cexCtxZero [] [] [] ['k']
    (Or.inl rfl) (by decide) (by decide) (by intro c hc; cases hc) rfl rfl (by decide) rfl rfl
    rfl rfl rfl rfl
